import Mathlib

/-!
Verification of the lora-playground data-collection pipeline
(`src/data_collection/`): a shallow embedding of the logo locator
(`download_logo.py`), the minimal-style filter (`filter_minimal.py`),
the repository merger (`merge_repos`) and the vector rasterizer
(`svg_to_png.py`), with theorems settling the specified properties.

Python strings are modelled as lists of characters (`List Char`), byte
strings as `List Nat`, and the network / filesystem as explicit function
arguments (a fetch oracle, a directory tree, an image-file content).
-/

namespace LoraPlayground

/-- Convert a Lean string literal to the `List Char` representation used
for Python strings throughout this development. -/
def strL (s : String) : List Char := s.toList

/-- Python `str.lower()` on a character-list string (ASCII lowering,
which is all the source ever applies it to). -/
def lowerL (s : List Char) : List Char := s.map Char.toLower

/-- Python `s.split(sep)` for a one-character separator: splits at every
occurrence of the separator, keeping empty segments, and returns the
whole string as a single segment when the separator does not occur. -/
def pySplit (sep : Char) : List Char → List (List Char)
  | [] => [[]]
  | c :: rest =>
      let r := pySplit sep rest
      if c = sep then [] :: r else (c :: r.headD []) :: r.tail

/-- `path.split(".")[-1].lower()` — the extension-extraction idiom used by
`find_logo_in_repo` in `download_logo.py`. -/
def extOf (p : List Char) : List Char := lowerL ((pySplit '.' p).getLastD [])

/-- The allowed extensions (without dot) checked by the direct phase of
`find_logo_in_repo`: `('png', 'svg', 'jpg', 'jpeg', 'gif')`. -/
def allowed_image_exts : List (List Char) :=
  [strL "png", strL "svg", strL "jpg", strL "jpeg", strL "gif"]

/-- The image extensions (with dot) collected by `list_repo_images`:
`{'.png', '.svg', '.jpg', '.jpeg', '.gif'}`. -/
def image_exts : List (List Char) :=
  [strL ".png", strL ".svg", strL ".jpg", strL ".jpeg", strL ".gif"]

example : pySplit '.' (strL "a.b") = [strL "a", strL "b"] := by decide
example : pySplit '.' (strL "") = [strL ""] := by decide
example : pySplit '.' (strL "abc") = [strL "abc"] := by decide
example : pySplit '.' (strL "x..png") = [strL "x", strL "", strL "png"] := by decide
example : extOf (strL "assets/Logo.PNG") = strL "png" := by decide
example : extOf (strL "logo") = strL "logo" := by decide

/-! ### Logo locator (`download_logo.py`) -/

/-- Python truthiness of an `Optional[bytes]` value: `None` and the empty
byte string are falsy, everything else is truthy (the `if content:` tests
in `find_logo_in_repo`). -/
def bytesTruthy : Option (List Nat) → Bool
  | none => false
  | some c => !c.isEmpty

/-- The fixed candidate-path list `LOGO_PATHS` (including its literal
duplicates), in declared priority order. -/
def LOGO_PATHS : List (List Char) :=
  [strL "logo.svg", strL "icon.svg",
   strL "logo.png", strL "icon.png",
   strL "assets/logo.svg", strL "assets/icon.svg",
   strL "assets/logo.png", strL "assets/icon.png",
   strL "docs/logo.svg", strL "docs/logo.svg",
   strL "docs/logo.png", strL "docs/logo.svg",
   strL "images/logo.svg", strL "images/icon.svg",
   strL "images/logo.png", strL "images/icon.png",
   strL "static/logo.svg", strL "static/icon.svg",
   strL "static/logo.png", strL "static/icon.png",
   strL "public/logo.svg", strL "public/icon.svg",
   strL "public/logo.png", strL "public/icon.png",
   strL "src/logo.svg", strL "src/icon.svg",
   strL "app/logo.svg", strL "app/icon.svg",
   strL "brand/logo.svg", strL "brand/icon.svg",
   strL "media/logo.svg", strL "media/icon.svg",
   strL "resources/logo.svg", strL "resources/icon.svg"]

/-- The direct phase of `find_logo_in_repo`: walk the candidate list,
fetch each path, and return on the first truthy content whose extension
is in the allowed set. Besides the result, the list of fetched (probed)
paths is returned, in probe order. -/
def directProbe (fetch : List Char → Option (List Nat)) :
    List (List Char) → Option (List Nat × List Char) × List (List Char)
  | [] => (none, [])
  | p :: rest =>
      if bytesTruthy (fetch p) then
        if extOf p ∈ allowed_image_exts then
          (some ((fetch p).getD [], extOf p), [p])
        else
          let r := directProbe fetch rest
          (r.1, p :: r.2)
      else
        let r := directProbe fetch rest
        (r.1, p :: r.2)

/-- A repository directory tree, as seen through the contents-listing
API: each entry is a file or a directory with children, carrying its
`name`; the full `path` is reconstructed from the parent prefix. -/
inductive Entry where
  | file (name : List Char)
  | dir (name : List Char) (children : List Entry)

/-- GitHub content paths: a root item's path is its name; deeper items
join the parent path with a slash. -/
def joinPath (pre name : List Char) : List Char :=
  if pre = [] then name else pre ++ '/' :: name

/-- The directory-name allow-list that `list_repo_images` recurses into. -/
def image_dir_names : List (List Char) :=
  [strL "assets", strL "images", strL "static", strL "public", strL "docs",
   strL "media", strL "brand", strL "resources", strL "art", strL "design",
   strL "img"]

/-- `list_repo_images`: walk the listed items in order; a file whose
lowercased name ends in an allowed image extension contributes its path;
a directory whose lowercased name is in the allow-list contributes its
recursive listing, spliced in at the directory's position. -/
def list_repo_images (pre : List Char) : List Entry → List (List Char)
  | [] => []
  | Entry.file name :: rest =>
      (if ∃ e ∈ image_exts, e <:+ lowerL name
       then [joinPath pre name] else []) ++ list_repo_images pre rest
  | Entry.dir name children :: rest =>
      (if lowerL name ∈ image_dir_names
       then list_repo_images (joinPath pre name) children else []) ++
      list_repo_images pre rest

/-- `'logo' in name.lower() or 'icon' in name.lower()` — the filename
preference test of the listing phase. -/
def nameHasLogoIcon (f : List Char) : Bool :=
  decide ((strL "logo") <:+: lowerL f) || decide ((strL "icon") <:+: lowerL f)

/-- The preference loop of the listing phase: fetch each logo/icon-named
file in order, returning the first truthy content; non-matching names are
skipped without a fetch. Also returns the fetched paths in order. -/
def listingLoop (fetch : List Char → Option (List Nat)) :
    List (List Char) → Option (List Nat × List Char) × List (List Char)
  | [] => (none, [])
  | f :: rest =>
      if nameHasLogoIcon f then
        if bytesTruthy (fetch f) then
          (some ((fetch f).getD [], extOf f), [f])
        else
          let r := listingLoop fetch rest
          (r.1, f :: r.2)
      else listingLoop fetch rest

/-- The whole recursive-listing phase of `find_logo_in_repo`: run the
preference loop over the listed files; if it finds nothing, fetch the
very first listed file as fallback (even if the loop already fetched
it); an empty listing yields absence with no fetch. -/
def listing_phase (fetch : List Char → Option (List Nat))
    (files : List (List Char)) :
    Option (List Nat × List Char) × List (List Char) :=
  match files with
  | [] => (none, [])
  | first :: _ =>
      match listingLoop fetch files with
      | (some r, probed) => (some r, probed)
      | (none, probed) =>
          if bytesTruthy (fetch first) then
            (some ((fetch first).getD [], extOf first), probed ++ [first])
          else (none, probed ++ [first])

/-- `find_logo_in_repo`, generalized over the candidate-path list: the
direct phase over the candidates, then the recursive-listing phase over
the repository tree. Returns the result together with every fetched
path, in fetch order. -/
def find_logo_core (fetch : List Char → Option (List Nat))
    (paths : List (List Char)) (tree : List Entry) :
    Option (List Nat × List Char) × List (List Char) :=
  match directProbe fetch paths with
  | (some r, probed) => (some r, probed)
  | (none, probed) =>
      let res := listing_phase fetch (list_repo_images [] tree)
      (res.1, probed ++ res.2)

/-- `find_logo_in_repo` proper, with the fixed `LOGO_PATHS` list. -/
def find_logo_in_repo (fetch : List Char → Option (List Nat))
    (tree : List Entry) : Option (List Nat × List Char) × List (List Char) :=
  find_logo_core fetch LOGO_PATHS tree

example :
    list_repo_images []
      [Entry.dir (strL "assets") [Entry.file (strL "a.png")],
       Entry.file (strL "b.png")] =
    [strL "assets/a.png", strL "b.png"] := by
  simp [list_repo_images, joinPath, image_exts, image_dir_names, lowerL, strL]

/-! ### Minimal-style filter (`filter_minimal.py`) -/

/-- The data of a raster image file that the filter inspects: its pixel
dimensions, the number of distinct colors of the RGB-converted and
thumbnail-downsized (≤ 100×100) image that `count_colors` histograms,
whether that color analysis runs without raising, and the value that
`analyze_dominant_colors` would report. -/
structure RasterImage where
  width : Nat
  height : Nat
  analyzedColors : Nat
  analyzeOk : Bool
  dominant : List (Nat × (Nat × Nat × Nat))
deriving DecidableEq

/-- The content found at an image path: a raster image that
`Image.open` can read, or a file on which `Image.open` raises. -/
inductive ImageFile where
  | raster (img : RasterImage)
  | unreadable
deriving DecidableEq

/-- The reason strings appended by `is_minimal_style`, with the
interpolated values carried as constructor data. -/
inductive Reason where
  | tooSmall (w h : Nat)
  | tooLarge (w h : Nat)
  | analyzeFailed
  | tooManyColors (n : Int)
  | openError
deriving DecidableEq

/-- The `result` dictionary built by `is_minimal_style`. -/
structure FilterResult where
  path : List Char
  passed : Bool
  reasons : List Reason
  color_count : Int
  dominant_colors : List (Nat × (Nat × Nat × Nat))
  size : Nat × Nat
deriving DecidableEq

/-- `image_path.lower().endswith('.svg')` — the vector-format test. -/
def isSvgPath (p : List Char) : Bool := (strL ".svg").isSuffixOf (lowerL p)

/-- `count_colors`: `-2` for an SVG path, `-1` when opening or analyzing
raises, `max_colors + 1` when `getcolors(maxcolors=max_colors)` returns
`None` (more distinct colors than the cap), else the distinct-color
count. -/
def count_colors (path : List Char) (file : ImageFile) (max_colors : Int) : Int :=
  if isSvgPath path then -2
  else
    match file with
    | ImageFile.unreadable => -1
    | ImageFile.raster img =>
        if img.analyzeOk then
          if (img.analyzedColors : Int) > max_colors then max_colors + 1
          else (img.analyzedColors : Int)
        else -1

/-- `is_minimal_style`: vector shortcut, then size bounds, then the
color-count threshold, then dominant colors; any `Image.open` failure is
caught into a failed result. -/
def is_minimal_style (path : List Char) (file : ImageFile)
    (max_color_threshold : Int) (min_size max_size : Nat × Nat) :
    Bool × FilterResult :=
  let result0 : FilterResult :=
    { path := path, passed := false, reasons := [], color_count := 0,
      dominant_colors := [], size := (0, 0) }
  if isSvgPath path then
    (true, { result0 with color_count := -2, passed := true })
  else
    match file with
    | ImageFile.unreadable => (false, { result0 with reasons := [Reason.openError] })
    | ImageFile.raster img =>
        let result1 := { result0 with size := (img.width, img.height) }
        if img.width < min_size.1 ∨ img.height < min_size.2 then
          (false, { result1 with reasons := [Reason.tooSmall img.width img.height] })
        else if img.width > max_size.1 ∨ img.height > max_size.2 then
          (false, { result1 with reasons := [Reason.tooLarge img.width img.height] })
        else
          let cc := count_colors path file 256
          let result2 := { result1 with color_count := cc }
          if cc < 0 then
            (false, { result2 with reasons := [Reason.analyzeFailed] })
          else if cc > max_color_threshold then
            (false, { result2 with reasons := [Reason.tooManyColors cc] })
          else
            (true, { result2 with dominant_colors := img.dominant, passed := true })

/-- The default size bounds of `is_minimal_style`. -/
def default_min_size : Nat × Nat := (64, 64)

/-- The default maximum size bound of `is_minimal_style`. -/
def default_max_size : Nat × Nat := (2048, 2048)

/-! ### Repository merger (`merge_repos`) -/

/-- A repository record, reduced to the fields `merge_repos` touches:
the `full_name` key and the `source` tag (absent when the key is not in
the dictionary). -/
structure Repo where
  full_name : List Char
  source : Option (List Char)
deriving DecidableEq

/-- The tagging loop over the starred list: `repo["source"] = "starred"`
unconditionally. -/
def tagStarred (r : Repo) : Repo := { r with source := some (strL "starred") }

/-- The tagging loop over the trending list: set `source` to
`"trending"` only when the key is absent. -/
def tagTrending (r : Repo) : Repo :=
  match r.source with
  | none => { r with source := some (strL "trending") }
  | some _ => r

/-- The deduplication loop of `merge_repos`: keep a record only when its
`full_name` has not been seen yet. -/
def dedupBy (seen : List (List Char)) : List Repo → List Repo
  | [] => []
  | r :: rest =>
      if r.full_name ∈ seen then dedupBy seen rest
      else r :: dedupBy (r.full_name :: seen) rest

/-- The `all_repos` accumulator of `merge_repos`: the tagged starred
list followed by the tagged trending list. -/
def allRepos (starred trending : List Repo) : List Repo :=
  starred.map tagStarred ++ trending.map tagTrending

/-- `merge_repos` on two in-memory lists: tag both lists, concatenate
starred-first, deduplicate by `full_name` keeping first occurrences. -/
def merge_repos (starred trending : List Repo) : List Repo :=
  dedupBy [] (allRepos starred trending)

/-! ### Vector rasterizer (`svg_to_png.py`) -/

/-- The `method` argument of `convert_svg_to_png`. -/
inductive ConvMethod where
  | auto | cairosvg | inkscape | imagemagick | unknown
deriving DecidableEq

/-- The environment a single `convert_svg_to_png` call sees: whether the
target PNG already exists, which backends are available, and whether
each backend would succeed on this input. -/
structure ConvEnv where
  png_exists : Bool
  has_cairosvg : Bool
  has_inkscape : Bool
  cairosvg_succeeds : Bool
  inkscape_succeeds : Bool
  imagemagick_succeeds : Bool
deriving DecidableEq

/-- `convert_svg_to_png`: skip with success when the target exists, else
resolve `auto` to the first available backend and invoke it. Returns the
success flag and the list of backends invoked (the writes attempted). -/
def convert_svg_to_png (env : ConvEnv) (method : ConvMethod) :
    Bool × List ConvMethod :=
  if env.png_exists then (true, [])
  else
    let m :=
      match method with
      | ConvMethod.auto =>
          if env.has_cairosvg then ConvMethod.cairosvg
          else if env.has_inkscape then ConvMethod.inkscape
          else ConvMethod.imagemagick
      | m => m
    match m with
    | ConvMethod.cairosvg => (env.cairosvg_succeeds, [ConvMethod.cairosvg])
    | ConvMethod.inkscape => (env.inkscape_succeeds, [ConvMethod.inkscape])
    | ConvMethod.imagemagick => (env.imagemagick_succeeds, [ConvMethod.imagemagick])
    | _ => (false, [])

/-- A fetch oracle for which the first logo/icon-named listed file
fails to fetch while the second succeeds. -/
def fetchLoopDemo : List Char → Option (List Nat) :=
  fun q => if q = strL "myicon.png" then some [1] else none

/-- A repository root with two logo/icon-named image files and no
conventional candidate path present. -/
def treeLoopDemo : List Entry :=
  [Entry.file (strL "mylogo.png"), Entry.file (strL "myicon.png")]

/-- A root listing in which an allow-listed subdirectory item precedes
a root-level image file. -/
def treeOrderDemo : List Entry :=
  [Entry.dir (strL "assets") [Entry.file (strL "a.png")],
   Entry.file (strL "b.png")]

/-! ### Basic facts about `pySplit` -/

theorem pySplit_ne_nil (sep : Char) (l : List Char) : pySplit sep l ≠ [] := by
  cases l with
  | nil => simp [pySplit]
  | cons c rest =>
      simp only [pySplit]
      split <;> simp

theorem pySplit_of_not_mem (sep : Char) (l : List Char) (h : sep ∉ l) :
    pySplit sep l = [l] := by
  induction l with
  | nil => rfl
  | cons c rest ih =>
      simp only [List.mem_cons, not_or] at h
      simp only [pySplit, ih h.2]
      rw [if_neg (fun hc => h.1 hc.symm)]
      simp

theorem two_le_length_pySplit (sep : Char) (l : List Char) (h : sep ∈ l) :
    2 ≤ (pySplit sep l).length := by
  induction l with
  | nil => cases h
  | cons c rest ih =>
      simp only [pySplit]
      by_cases hc : c = sep
      · rw [if_pos hc]
        have := List.length_pos.mpr (pySplit_ne_nil sep rest)
        simp only [List.length_cons]
        omega
      · rw [if_neg hc]
        have hm : sep ∈ rest := by
          rcases List.mem_cons.mp h with h1 | h1
          · exact absurd h1.symm hc
          · exact h1
        have h2 := ih hm
        have h3 := pySplit_ne_nil sep rest
        simp only [List.length_cons]
        cases hr : pySplit sep rest with
        | nil => exact absurd hr h3
        | cons a as =>
            rw [hr] at h2
            simp only [List.length_cons] at h2 ⊢
            simp only [List.tail_cons]
            omega

theorem pySplit_getLastD_append (sep : Char) (l₁ e : List Char) (he : sep ∉ e) :
    (pySplit sep (l₁ ++ sep :: e)).getLastD [] = e := by
  induction l₁ with
  | nil =>
      simp only [List.nil_append, pySplit, if_pos rfl]
      rw [pySplit_of_not_mem sep e he]
      rfl
  | cons c l₁ ih =>
      simp only [List.cons_append, pySplit]
      by_cases hc : c = sep
      · rw [if_pos hc]
        cases hr : pySplit sep (l₁ ++ sep :: e) with
        | nil => exact absurd hr (pySplit_ne_nil _ _)
        | cons a as =>
            rw [hr] at ih
            simpa using ih
      · rw [if_neg hc]
        have h2 : 2 ≤ (pySplit sep (l₁ ++ sep :: e)).length :=
          two_le_length_pySplit sep _ (by simp)
        cases hr : pySplit sep (l₁ ++ sep :: e) with
        | nil => exact absurd hr (pySplit_ne_nil _ _)
        | cons a as =>
            rw [hr] at ih h2
            simp only [List.length_cons] at h2
            cases as with
            | nil => simp only [List.length_nil] at h2; omega
            | cons b bs => simpa using ih

/-! ### Lowercasing and extensions -/

theorem toNat_ofNat_valid (m : Nat) (h : m.isValidChar) :
    (Char.ofNat m).toNat = m := by
  rw [Char.ofNat, dif_pos h]
  rfl

theorem toLower_eq_dot (c : Char) : c.toLower = '.' ↔ c = '.' := by
  have hdef : c.toLower =
      if c.toNat ≥ 65 ∧ c.toNat ≤ 90 then Char.ofNat (c.toNat + 32) else c := rfl
  rw [hdef]
  by_cases hc : c.toNat ≥ 65 ∧ c.toNat ≤ 90
  · rw [if_pos hc]
    constructor
    · intro h
      exfalso
      have hv : (c.toNat + 32).isValidChar := Or.inl (by omega)
      have ht : (Char.ofNat (c.toNat + 32)).toNat = c.toNat + 32 :=
        toNat_ofNat_valid _ hv
      rw [h] at ht
      have hd : ('.' : Char).toNat = 46 := rfl
      omega
    · intro h
      subst h
      exact absurd hc (by decide)
  · rw [if_neg hc]

theorem lowerL_headD (r : List (List Char)) :
    (r.map lowerL).headD [] = lowerL (r.headD []) := by
  cases r <;> rfl

theorem lowerL_getLastD (r : List (List Char)) :
    (r.map lowerL).getLastD [] = lowerL (r.getLastD []) := by
  induction r with
  | nil => rfl
  | cons a as ih =>
      cases as with
      | nil => rfl
      | cons b bs => simpa using ih

theorem pySplit_lowerL (l : List Char) :
    pySplit '.' (lowerL l) = (pySplit '.' l).map lowerL := by
  induction l with
  | nil => rfl
  | cons c rest ih =>
      simp only [lowerL, List.map_cons] at ih ⊢
      simp only [pySplit]
      by_cases hc : c = '.'
      · rw [if_pos ((toLower_eq_dot c).mpr hc), if_pos hc, ih]
        rfl
      · rw [if_neg (fun h => hc ((toLower_eq_dot c).mp h)), if_neg hc, ih]
        simp only [List.map_cons, List.map_tail]
        have := lowerL_headD (pySplit '.' rest)
        simp only [lowerL] at this
        rw [this]
        simp only [lowerL, List.map_cons]

/-- The key extension fact: if the lowercased path ends in a dot followed
by a dot-free segment, then the `split(".")[-1].lower()` idiom recovers
exactly that segment. -/
theorem extOf_of_suffix (p e : List Char) (he : '.' ∉ e)
    (h : ('.' :: e) <:+ lowerL p) : extOf p = e := by
  obtain ⟨l₁, hl⟩ := h
  have h1 : extOf p = (pySplit '.' (lowerL p)).getLastD [] := by
    rw [pySplit_lowerL, lowerL_getLastD]
    rfl
  rw [h1, ← hl, pySplit_getLastD_append '.' l₁ e he]

/-! ### Theorems for the specified properties -/

/-- C9: for every conversion environment and requested method, if the
target raster file already exists then `convert_svg_to_png` returns
success without invoking any conversion backend (no write is attempted,
so the existing file is not overwritten). -/
theorem convert_skips_existing (env : ConvEnv) (method : ConvMethod)
    (h : env.png_exists = true) :
    convert_svg_to_png env method = (true, []) := by
  simp [convert_svg_to_png, h]

theorem convert_skips_existing_witness :
    (ConvEnv.mk true true true false false false).png_exists = true ∧
    convert_svg_to_png (ConvEnv.mk true true true false false false)
      ConvMethod.auto = (true, []) :=
  ⟨by decide, convert_skips_existing (ConvEnv.mk true true true false false false)
    ConvMethod.auto (by decide)⟩

/-- C4: for every path whose lowercased form ends in `.svg`,
`is_minimal_style` returns `passed = true` with `color_count = -2`,
whatever the file content is (even an unreadable file), and the result
records no size, reasons or dominant colors — no pixel analysis
happened. -/
theorem svg_always_passes (path : List Char) (file : ImageFile)
    (thr : Int) (mn mx : Nat × Nat) (h : isSvgPath path = true) :
    is_minimal_style path file thr mn mx =
      (true, { path := path, passed := true, reasons := [], color_count := -2,
               dominant_colors := [], size := (0, 0) }) := by
  simp [is_minimal_style, h]

theorem svg_always_passes_witness :
    isSvgPath (strL "Logo.SVG") = true ∧
    is_minimal_style (strL "Logo.SVG") ImageFile.unreadable 10
        default_min_size default_max_size =
      (true, { path := strL "Logo.SVG", passed := true, reasons := [],
               color_count := -2, dominant_colors := [], size := (0, 0) }) :=
  ⟨by decide, svg_always_passes (strL "Logo.SVG") ImageFile.unreadable 10
    default_min_size default_max_size (by decide)⟩

/-- C8 counterexample: the claimed scenario is false on the code — a
2×2 solid-red raster with a single distinct color is rejected by
`is_minimal_style` at threshold 10 with the default size bounds,
because 2 is below the 64-pixel minimum dimension. -/
theorem tiny_red_png_rejected :
    (is_minimal_style (strL "red.png")
        (ImageFile.raster (RasterImage.mk 2 2 1 true [(4, (255, 0, 0))]))
        10 default_min_size default_max_size).1 = false ∧
    (is_minimal_style (strL "red.png")
        (ImageFile.raster (RasterImage.mk 2 2 1 true [(4, (255, 0, 0))]))
        10 default_min_size default_max_size).2.reasons = [Reason.tooSmall 2 2] := by
  decide

/-- C8 amended: a 64×64 solid-red PNG (1 distinct color) passes the
filter at color threshold 10 with the default size bounds; the 2×2
variant of the original claim is rejected as too small, since the
default minimum dimension is 64. -/
theorem red_png_passes_at_64 :
    is_minimal_style (strL "red.png")
        (ImageFile.raster (RasterImage.mk 64 64 1 true [(4096, (255, 0, 0))]))
        10 default_min_size default_max_size =
      (true, { path := strL "red.png", passed := true, reasons := [],
               color_count := 1, dominant_colors := [(4096, (255, 0, 0))],
               size := (64, 64) }) ∧
    (is_minimal_style (strL "red.png")
        (ImageFile.raster (RasterImage.mk 2 2 1 true [(4, (255, 0, 0))]))
        10 default_min_size default_max_size).1 = false := by
  decide

/-- C3: whenever `is_minimal_style` produces a result with
`passed = true`, either the path has the vector (`.svg`) extension, or
the file opened as a raster image (no exception), both its dimensions
lie within the min/max bounds, and the recorded `color_count` satisfies
`0 ≤ color_count ≤ threshold` (so the color analysis succeeded). -/
theorem passed_invariant (path : List Char) (file : ImageFile) (thr : Int)
    (mn mx : Nat × Nat)
    (h : (is_minimal_style path file thr mn mx).2.passed = true) :
    isSvgPath path = true ∨
    ∃ img, file = ImageFile.raster img ∧
      mn.1 ≤ img.width ∧ mn.2 ≤ img.height ∧
      img.width ≤ mx.1 ∧ img.height ≤ mx.2 ∧
      0 ≤ (is_minimal_style path file thr mn mx).2.color_count ∧
      (is_minimal_style path file thr mn mx).2.color_count ≤ thr := by
  by_cases hs : isSvgPath path = true
  · exact Or.inl hs
  · right
    have hs' : isSvgPath path = false := by
      cases hb : isSvgPath path with
      | true => exact absurd hb hs
      | false => rfl
    cases file with
    | unreadable => simp [is_minimal_style, hs'] at h
    | raster img =>
        by_cases h1 : img.width < mn.1 ∨ img.height < mn.2
        · simp [is_minimal_style, hs', h1] at h
        · by_cases h2 : img.width > mx.1 ∨ img.height > mx.2
          · simp [is_minimal_style, hs', h1, h2] at h
          · by_cases h3 : count_colors path (ImageFile.raster img) 256 < 0
            · simp [is_minimal_style, hs', h1, h2, h3] at h
            · by_cases h4 : count_colors path (ImageFile.raster img) 256 > thr
              · simp [is_minimal_style, hs', h1, h2, h3, h4] at h
              · push_neg at h1 h2
                refine ⟨img, rfl, h1.1, h1.2, h2.1, h2.2, ?_, ?_⟩ <;>
                  simp [is_minimal_style, hs', h3, h4,
                    not_or.mpr ⟨Nat.not_lt.mpr h1.1, Nat.not_lt.mpr h1.2⟩,
                    not_or.mpr ⟨Nat.not_lt.mpr h2.1, Nat.not_lt.mpr h2.2⟩] <;>
                  omega

theorem passed_invariant_witness :
    (is_minimal_style (strL "p.png")
        (ImageFile.raster (RasterImage.mk 64 64 1 true [])) 10
        default_min_size default_max_size).2.passed = true ∧
    (isSvgPath (strL "p.png") = true ∨
     ∃ img, ImageFile.raster (RasterImage.mk 64 64 1 true []) = ImageFile.raster img ∧
       default_min_size.1 ≤ img.width ∧ default_min_size.2 ≤ img.height ∧
       img.width ≤ default_max_size.1 ∧ img.height ≤ default_max_size.2 ∧
       0 ≤ (is_minimal_style (strL "p.png")
            (ImageFile.raster (RasterImage.mk 64 64 1 true [])) 10
            default_min_size default_max_size).2.color_count ∧
       (is_minimal_style (strL "p.png")
            (ImageFile.raster (RasterImage.mk 64 64 1 true [])) 10
            default_min_size default_max_size).2.color_count ≤ 10) :=
  ⟨by decide, passed_invariant (strL "p.png")
    (ImageFile.raster (RasterImage.mk 64 64 1 true [])) 10
    default_min_size default_max_size (by decide)⟩

/-- C2 counterexample: with a caller-supplied threshold of 257 (above
the internal analysis cap of 256), an in-bounds raster image with 258
distinct colors — more than the threshold — is ACCEPTED, because
`getcolors(maxcolors=256)` collapses the count to the sentinel 257,
which does not exceed the threshold. The claim says any image whose
distinct-color count exceeds the threshold is rejected with a reason. -/
theorem color_threshold_cap_counterexample :
    (258 : Int) > 257 ∧
    (is_minimal_style (strL "big.png")
        (ImageFile.raster (RasterImage.mk 100 100 258 true [])) 257
        default_min_size default_max_size).1 = true ∧
    (is_minimal_style (strL "big.png")
        (ImageFile.raster (RasterImage.mk 100 100 258 true [])) 257
        default_min_size default_max_size).2.reasons = [] := by
  decide

/-- C2 amended: for a raster (non-svg) image whose color analysis
succeeds and whose dimensions are within the size bounds:
(1) if the distinct-color count is at most the threshold the filter
accepts; (2) if the count exceeds the threshold AND the threshold does
not exceed the internal analysis cap (256), it rejects with a reasons
entry carrying the recorded color count; (3) if the distinct colors
exceed the cap, the recorded `color_count` is the sentinel 257. -/
theorem minimal_filter_color_rules (path : List Char) (img : RasterImage)
    (thr : Int) (mn mx : Nat × Nat)
    (hsvg : isSvgPath path = false) (hok : img.analyzeOk = true)
    (hw1 : mn.1 ≤ img.width) (hh1 : mn.2 ≤ img.height)
    (hw2 : img.width ≤ mx.1) (hh2 : img.height ≤ mx.2) :
    ((img.analyzedColors : Int) ≤ thr →
      (is_minimal_style path (ImageFile.raster img) thr mn mx).1 = true) ∧
    (thr ≤ 256 → (img.analyzedColors : Int) > thr →
      (is_minimal_style path (ImageFile.raster img) thr mn mx).1 = false ∧
      (is_minimal_style path (ImageFile.raster img) thr mn mx).2.reasons =
        [Reason.tooManyColors
          ((is_minimal_style path (ImageFile.raster img) thr mn mx).2.color_count)]) ∧
    ((img.analyzedColors : Int) > 256 →
      (is_minimal_style path (ImageFile.raster img) thr mn mx).2.color_count = 257) := by
  have hcc : count_colors path (ImageFile.raster img) 256 =
      if (img.analyzedColors : Int) > 256 then 257 else (img.analyzedColors : Int) := by
    simp [count_colors, hsvg, hok]
  have hn1 : ¬(img.width < mn.1 ∨ img.height < mn.2) := by omega
  have hn2 : ¬(img.width > mx.1 ∨ img.height > mx.2) := by omega
  refine ⟨?_, ?_, ?_⟩
  · intro hle
    have h3 : ¬(count_colors path (ImageFile.raster img) 256 < 0) := by
      rw [hcc]; split <;> omega
    have h4 : ¬(count_colors path (ImageFile.raster img) 256 > thr) := by
      rw [hcc]; split <;> omega
    simp [is_minimal_style, hsvg, hn1, hn2, h3, h4]
  · intro hthr hgt
    have h3 : ¬(count_colors path (ImageFile.raster img) 256 < 0) := by
      rw [hcc]; split <;> omega
    have h4 : count_colors path (ImageFile.raster img) 256 > thr := by
      rw [hcc]; split <;> omega
    constructor <;> simp [is_minimal_style, hsvg, hn1, hn2, h3, h4]
  · intro hgt
    have h257 : count_colors path (ImageFile.raster img) 256 = 257 := by
      rw [hcc, if_pos hgt]
    have h3 : ¬(count_colors path (ImageFile.raster img) 256 < 0) := by omega
    by_cases h4 : count_colors path (ImageFile.raster img) 256 > thr <;>
      simp [is_minimal_style, hsvg, hn1, hn2, h3, h4, h257] <;>
      split <;> rfl

theorem minimal_filter_color_rules_witness :
    isSvgPath (strL "b.png") = false ∧
    (RasterImage.mk 64 64 5000 true []).analyzeOk = true ∧
    (is_minimal_style (strL "b.png")
        (ImageFile.raster (RasterImage.mk 64 64 5000 true [])) 10
        default_min_size default_max_size).1 = false ∧
    (is_minimal_style (strL "b.png")
        (ImageFile.raster (RasterImage.mk 64 64 5000 true [])) 10
        default_min_size default_max_size).2.reasons =
      [Reason.tooManyColors
        ((is_minimal_style (strL "b.png")
            (ImageFile.raster (RasterImage.mk 64 64 5000 true [])) 10
            default_min_size default_max_size).2.color_count)] ∧
    (is_minimal_style (strL "b.png")
        (ImageFile.raster (RasterImage.mk 64 64 5000 true [])) 10
        default_min_size default_max_size).2.color_count = 257 :=
  ⟨by decide, by decide,
   ((minimal_filter_color_rules (strL "b.png") (RasterImage.mk 64 64 5000 true [])
      10 default_min_size default_max_size (by decide) (by decide) (by decide)
      (by decide) (by decide) (by decide)).2.1 (by decide) (by decide)).1,
   ((minimal_filter_color_rules (strL "b.png") (RasterImage.mk 64 64 5000 true [])
      10 default_min_size default_max_size (by decide) (by decide) (by decide)
      (by decide) (by decide) (by decide)).2.1 (by decide) (by decide)).2,
   (minimal_filter_color_rules (strL "b.png") (RasterImage.mk 64 64 5000 true [])
      10 default_min_size default_max_size (by decide) (by decide) (by decide)
      (by decide) (by decide) (by decide)).2.2 (by decide)⟩

/-! ### Merger lemmas -/

theorem dedupBy_sublist (seen : List (List Char)) (l : List Repo) :
    List.Sublist (dedupBy seen l) l := by
  induction l generalizing seen with
  | nil => simp [dedupBy]
  | cons r rest ih =>
      simp only [dedupBy]
      split
      · exact (ih seen).trans (List.sublist_cons_self r rest)
      · exact List.Sublist.cons₂ r (ih _)

theorem dedupBy_names (seen : List (List Char)) (l : List Repo) :
    ((dedupBy seen l).map Repo.full_name).Nodup ∧
    ∀ n ∈ (dedupBy seen l).map Repo.full_name, n ∉ seen := by
  induction l generalizing seen with
  | nil => simp [dedupBy]
  | cons r rest ih =>
      simp only [dedupBy]
      split
      · exact ih seen
      · rename_i hns
        obtain ⟨ihn, ihs⟩ := ih (r.full_name :: seen)
        constructor
        · simp only [List.map_cons, List.nodup_cons]
          exact ⟨fun hmem => (ihs _ hmem) (List.mem_cons_self _ _), ihn⟩
        · intro n hn
          simp only [List.map_cons, List.mem_cons] at hn
          rcases hn with rfl | hn
          · exact hns
          · exact fun hseen => (ihs n hn) (List.mem_cons_of_mem _ hseen)

theorem dedupBy_keeps_first (seen : List (List Char)) (l₁ : List Repo)
    (r : Repo) (l₂ : List Repo)
    (hseen : r.full_name ∉ seen)
    (hfirst : r.full_name ∉ l₁.map Repo.full_name) :
    r ∈ dedupBy seen (l₁ ++ r :: l₂) := by
  induction l₁ generalizing seen with
  | nil =>
      simp only [List.nil_append, dedupBy]
      rw [if_neg hseen]
      exact List.mem_cons_self _ _
  | cons q l₁ ih =>
      simp only [List.map_cons, List.mem_cons, not_or] at hfirst
      simp only [List.cons_append, dedupBy]
      split
      · exact ih seen hseen hfirst.2
      · exact List.mem_cons_of_mem _
          (ih (q.full_name :: seen)
            (by simp only [List.mem_cons, not_or]; exact ⟨hfirst.1, hseen⟩)
            hfirst.2)

/-- C5: `merge_repos` returns a sublist of the tagged concatenation
(starred list fully before trending list) — so first-seen relative
order is preserved — with no `full_name` occurring twice, with length
at most the sum of the input lengths, and containing every record that
is the first occurrence of its `full_name` in the concatenation. -/
theorem merge_repos_spec (starred trending : List Repo) :
    List.Sublist (merge_repos starred trending) (allRepos starred trending) ∧
    ((merge_repos starred trending).map Repo.full_name).Nodup ∧
    (merge_repos starred trending).length ≤ starred.length + trending.length ∧
    ∀ l₁ r l₂, allRepos starred trending = l₁ ++ r :: l₂ →
      r.full_name ∉ l₁.map Repo.full_name →
      r ∈ merge_repos starred trending := by
  unfold merge_repos
  refine ⟨dedupBy_sublist [] _, (dedupBy_names [] _).1, ?_, ?_⟩
  · have h := (dedupBy_sublist [] (allRepos starred trending)).length_le
    simpa [allRepos] using h
  · intro l₁ r l₂ hdecomp hfirst
    rw [hdecomp]
    exact dedupBy_keeps_first [] l₁ r l₂ (by simp) hfirst

theorem merge_repos_spec_witness :
    allRepos [Repo.mk (strL "o/a") none] [Repo.mk (strL "o/b") none, Repo.mk (strL "o/a") none] =
      [tagStarred (Repo.mk (strL "o/a") none)] ++
        tagTrending (Repo.mk (strL "o/b") none) ::
          [tagTrending (Repo.mk (strL "o/a") none)] ∧
    (tagTrending (Repo.mk (strL "o/b") none)).full_name ∉
      [tagStarred (Repo.mk (strL "o/a") none)].map Repo.full_name ∧
    tagTrending (Repo.mk (strL "o/b") none) ∈
      merge_repos [Repo.mk (strL "o/a") none]
        [Repo.mk (strL "o/b") none, Repo.mk (strL "o/a") none] :=
  ⟨by decide, by decide,
   (merge_repos_spec [Repo.mk (strL "o/a") none]
      [Repo.mk (strL "o/b") none, Repo.mk (strL "o/a") none]).2.2.2
     [tagStarred (Repo.mk (strL "o/a") none)]
     (tagTrending (Repo.mk (strL "o/b") none))
     [tagTrending (Repo.mk (strL "o/a") none)] (by decide) (by decide)⟩

/-! ### Locator direct-phase lemmas -/

theorem directProbe_hit (fetch : List Char → Option (List Nat))
    (l₁ l₂ : List (List Char)) (p : List Char)
    (h₁ : ∀ q ∈ l₁, ¬(bytesTruthy (fetch q) = true ∧ extOf q ∈ allowed_image_exts))
    (h₂ : bytesTruthy (fetch p) = true)
    (h₃ : extOf p ∈ allowed_image_exts) :
    directProbe fetch (l₁ ++ p :: l₂) =
      (some ((fetch p).getD [], extOf p), l₁ ++ [p]) := by
  induction l₁ with
  | nil => simp [directProbe, h₂, h₃]
  | cons q l₁ ih =>
      have hq := h₁ q (List.mem_cons_self _ _)
      have ih' := ih (fun x hx => h₁ x (List.mem_cons_of_mem _ hx))
      simp only [List.cons_append, directProbe]
      cases ht : bytesTruthy (fetch q) with
      | false => simp [ht, ih']
      | true =>
          have hm : extOf q ∉ allowed_image_exts := fun hmem => hq ⟨ht, hmem⟩
          simp [ht, hm, ih']

/-- C1: for every fetch oracle, repository tree, and candidate-path
list decomposed as `l₁ ++ p :: l₂` where no candidate in `l₁` both
fetches truthily and has an allowed extension, while `p` does both,
`find_logo_core` returns `p`'s content and lowercased extension, and
the probed (fetched) paths are exactly `l₁ ++ [p]` — in declared
order, with no later candidate probed and the listing phase never
entered. -/
theorem find_logo_first_hit (fetch : List Char → Option (List Nat))
    (tree : List Entry) (l₁ l₂ : List (List Char)) (p : List Char)
    (h₁ : ∀ q ∈ l₁, ¬(bytesTruthy (fetch q) = true ∧ extOf q ∈ allowed_image_exts))
    (h₂ : bytesTruthy (fetch p) = true)
    (h₃ : extOf p ∈ allowed_image_exts) :
    find_logo_core fetch (l₁ ++ p :: l₂) tree =
      (some ((fetch p).getD [], extOf p), l₁ ++ [p]) := by
  unfold find_logo_core
  rw [directProbe_hit fetch l₁ l₂ p h₁ h₂ h₃]

theorem find_logo_first_hit_witness :
    (∀ q ∈ [strL "logo.svg", strL "icon.svg"],
      ¬(bytesTruthy ((fun x => if x = strL "logo.png" then some [7] else none) q) = true ∧
        extOf q ∈ allowed_image_exts)) ∧
    bytesTruthy ((fun x => if x = strL "logo.png" then some [7] else none)
      (strL "logo.png")) = true ∧
    find_logo_core (fun x => if x = strL "logo.png" then some [7] else none)
        ([strL "logo.svg", strL "icon.svg"] ++ strL "logo.png" :: [strL "icon.png"]) [] =
      (some ([7], strL "png"),
       [strL "logo.svg", strL "icon.svg"] ++ [strL "logo.png"]) :=
  ⟨by decide, by decide,
   find_logo_first_hit (fun x => if x = strL "logo.png" then some [7] else none)
     [] [strL "logo.svg", strL "icon.svg"] [strL "icon.png"] (strL "logo.png")
     (by decide) (by decide) (by decide)⟩

/-! ### Listing-phase lemmas -/

theorem listingLoop_all_fail (fetch : List Char → Option (List Nat))
    (files : List (List Char))
    (h : ∀ g ∈ files, nameHasLogoIcon g = true → bytesTruthy (fetch g) = false) :
    listingLoop fetch files = (none, files.filter nameHasLogoIcon) := by
  induction files with
  | nil => rfl
  | cons f rest ih =>
      have hrest := ih (fun g hg => h g (List.mem_cons_of_mem _ hg))
      cases hn : nameHasLogoIcon f with
      | false => simp [listingLoop, List.filter_cons, hn, hrest]
      | true =>
          have hf := h f (List.mem_cons_self _ _) hn
          simp [listingLoop, List.filter_cons, hn, hf, hrest]

theorem listingLoop_hit (fetch : List Char → Option (List Nat))
    (l₁ l₂ : List (List Char)) (f : List Char)
    (h₁ : ∀ g ∈ l₁, nameHasLogoIcon g = true → bytesTruthy (fetch g) = false)
    (h₂ : nameHasLogoIcon f = true)
    (h₃ : bytesTruthy (fetch f) = true) :
    listingLoop fetch (l₁ ++ f :: l₂) =
      (some ((fetch f).getD [], extOf f), l₁.filter nameHasLogoIcon ++ [f]) := by
  induction l₁ with
  | nil => simp [listingLoop, h₂, h₃]
  | cons q l₁ ih =>
      have ih' := ih (fun g hg => h₁ g (List.mem_cons_of_mem _ hg))
      simp only [List.cons_append]
      cases hn : nameHasLogoIcon q with
      | false => simp [listingLoop, List.filter_cons, hn, ih']
      | true =>
          have hq := h₁ q (List.mem_cons_self _ _) hn
          simp [listingLoop, List.filter_cons, hn, hq, ih']

theorem listing_phase_hit (fetch : List Char → Option (List Nat))
    (l₁ l₂ : List (List Char)) (f : List Char)
    (h₁ : ∀ g ∈ l₁, nameHasLogoIcon g = true → bytesTruthy (fetch g) = false)
    (h₂ : nameHasLogoIcon f = true)
    (h₃ : bytesTruthy (fetch f) = true) :
    (listing_phase fetch (l₁ ++ f :: l₂)).1 =
      some ((fetch f).getD [], extOf f) := by
  have hloop := listingLoop_hit fetch l₁ l₂ f h₁ h₂ h₃
  cases l₁ with
  | nil =>
      simp only [List.nil_append] at hloop ⊢
      simp [listing_phase, hloop]
  | cons q l₁ =>
      simp only [List.cons_append] at hloop ⊢
      simp [listing_phase, hloop]

theorem listing_phase_all_fail (fetch : List Char → Option (List Nat))
    (first : List Char) (rest : List (List Char))
    (h : ∀ g ∈ first :: rest, nameHasLogoIcon g = true → bytesTruthy (fetch g) = false)
    (hf : bytesTruthy (fetch first) = false) :
    listing_phase fetch (first :: rest) =
      (none, (first :: rest).filter nameHasLogoIcon ++ [first]) := by
  have hloop := listingLoop_all_fail fetch (first :: rest) h
  simp [listing_phase, hloop, hf]

theorem listing_phase_fallback_success (fetch : List Char → Option (List Nat))
    (first : List Char) (rest : List (List Char))
    (h : ∀ g ∈ first :: rest, nameHasLogoIcon g = true → bytesTruthy (fetch g) = false)
    (hf : bytesTruthy (fetch first) = true) :
    listing_phase fetch (first :: rest) =
      (some ((fetch first).getD [], extOf first),
       (first :: rest).filter nameHasLogoIcon ++ [first]) := by
  have hloop := listingLoop_all_fail fetch (first :: rest) h
  simp [listing_phase, hloop, hf]

theorem listing_phase_none_named_hit (fetch : List Char → Option (List Nat))
    (first : List Char) (rest : List (List Char))
    (h : ∀ g ∈ first :: rest, nameHasLogoIcon g = false)
    (hf : bytesTruthy (fetch first) = true) :
    (listing_phase fetch (first :: rest)).1 =
      some ((fetch first).getD [], extOf first) := by
  have hloop := listingLoop_all_fail fetch (first :: rest)
    (fun g hg hn => by rw [h g hg] at hn; cases hn)
  simp [listing_phase, hloop, hf]

theorem find_logo_core_of_direct_none (fetch : List Char → Option (List Nat))
    (paths : List (List Char)) (tree : List Entry) (pr : List (List Char))
    (h : directProbe fetch paths = (none, pr)) :
    find_logo_core fetch paths tree =
      ((listing_phase fetch (list_repo_images [] tree)).1,
       pr ++ (listing_phase fetch (list_repo_images [] tree)).2) := by
  unfold find_logo_core
  rw [h]

theorem list_repo_images_append (pre : List Char) (xs ys : List Entry) :
    list_repo_images pre (xs ++ ys) =
      list_repo_images pre xs ++ list_repo_images pre ys := by
  induction xs with
  | nil => simp [list_repo_images]
  | cons e rest ih =>
      cases e with
      | file name => simp [list_repo_images, ih]
      | dir name children => simp [list_repo_images, ih]

theorem allowed_lower : ∀ x ∈ allowed_image_exts, lowerL x = x := by decide

theorem suffix_lowerL_joinPath (pre name x : List Char)
    (h : x <:+ lowerL name) : x <:+ lowerL (joinPath pre name) := by
  unfold joinPath
  split
  · exact h
  · simp only [lowerL, List.map_append, List.map_cons]
    exact h.trans ((List.suffix_cons _ _).trans (List.suffix_append _ _))

theorem image_ext_split (e : List Char) (he : e ∈ image_exts) :
    ∃ x, e = '.' :: x ∧ '.' ∉ x ∧ x ∈ allowed_image_exts := by
  simp only [image_exts, List.mem_cons, List.not_mem_nil, or_false] at he
  rcases he with rfl | rfl | rfl | rfl | rfl
  · exact ⟨strL "png", by decide, by decide, by decide⟩
  · exact ⟨strL "svg", by decide, by decide, by decide⟩
  · exact ⟨strL "jpg", by decide, by decide, by decide⟩
  · exact ⟨strL "jpeg", by decide, by decide, by decide⟩
  · exact ⟨strL "gif", by decide, by decide, by decide⟩

theorem extOf_mem_of_listed (pre : List Char) (items : List Entry) :
    ∀ f ∈ list_repo_images pre items, extOf f ∈ allowed_image_exts := by
  induction pre, items using list_repo_images.induct with
  | case1 pre => intro f hf; simp [list_repo_images] at hf
  | case2 pre name rest ih =>
      intro f hf
      simp only [list_repo_images] at hf
      rcases List.mem_append.mp hf with hf1 | hf2
      · split at hf1
        · rename_i hex
          obtain ⟨e, he, hsuf⟩ := hex
          obtain ⟨x, rfl, hdot, hx⟩ := image_ext_split e he
          simp only [List.mem_singleton] at hf1
          subst hf1
          rw [extOf_of_suffix _ x hdot (suffix_lowerL_joinPath pre name _ hsuf)]
          exact hx
        · simp at hf1
      · exact ih f hf2
  | case3 pre name children rest ih1 ih2 =>
      intro f hf
      simp only [list_repo_images] at hf
      rcases List.mem_append.mp hf with hf1 | hf2
      · split at hf1
        · exact ih1 f hf1
        · simp at hf1
      · exact ih2 f hf2

theorem directProbe_some (fetch : List Char → Option (List Nat)) :
    ∀ paths c ext, (directProbe fetch paths).1 = some (c, ext) →
      ext ∈ allowed_image_exts := by
  intro paths
  induction paths with
  | nil => intro c ext h; simp [directProbe] at h
  | cons p rest ih =>
      intro c ext h
      cases hb : bytesTruthy (fetch p) with
      | false =>
          refine ih c ext ?_
          simpa [directProbe, hb] using h
      | true =>
          by_cases hm : extOf p ∈ allowed_image_exts
          · simp only [directProbe, hb, if_true, if_pos hm] at h
            simp only [Option.some.injEq, Prod.mk.injEq] at h
            rw [← h.2]
            exact hm
          · refine ih c ext ?_
            simpa [directProbe, hb, hm] using h

theorem listingLoop_some (fetch : List Char → Option (List Nat)) :
    ∀ files c ext, (listingLoop fetch files).1 = some (c, ext) →
      ∃ f ∈ files, ext = extOf f := by
  intro files
  induction files with
  | nil => intro c ext h; simp [listingLoop] at h
  | cons f rest ih =>
      intro c ext h
      cases hn : nameHasLogoIcon f with
      | false =>
          obtain ⟨g, hg, hext⟩ := ih c ext (by simpa [listingLoop, hn] using h)
          exact ⟨g, List.mem_cons_of_mem _ hg, hext⟩
      | true =>
          cases hb : bytesTruthy (fetch f) with
          | false =>
              obtain ⟨g, hg, hext⟩ := ih c ext (by simpa [listingLoop, hn, hb] using h)
              exact ⟨g, List.mem_cons_of_mem _ hg, hext⟩
          | true =>
              simp only [listingLoop, hn, hb, if_true] at h
              simp only [Option.some.injEq, Prod.mk.injEq] at h
              exact ⟨f, List.mem_cons_self _ _, h.2.symm⟩

theorem listing_phase_some (fetch : List Char → Option (List Nat))
    (files : List (List Char)) (c : List Nat) (ext : List Char)
    (h : (listing_phase fetch files).1 = some (c, ext)) :
    ∃ f ∈ files, ext = extOf f := by
  cases files with
  | nil => simp [listing_phase] at h
  | cons first rest =>
      unfold listing_phase at h
      cases hl : listingLoop fetch (first :: rest) with
      | mk r probed =>
          cases r with
          | some v =>
              rw [hl] at h
              simp only at h
              exact listingLoop_some fetch (first :: rest) c ext (by rw [hl, h])
          | none =>
              rw [hl] at h
              cases hb : bytesTruthy (fetch first) with
              | false => simp [hb] at h
              | true =>
                  simp only [hb, if_true] at h
                  simp only [Option.some.injEq, Prod.mk.injEq] at h
                  exact ⟨first, List.mem_cons_self _ _, h.2.symm⟩

/-- C6 counterexample: in the recursive-listing phase the fetch of the
first selected (logo/icon-named) path `mylogo.png` fails, yet
`find_logo_in_repo` does NOT yield absence: the loop falls through to
the next logo/icon-named file and returns its content. -/
theorem listing_fetch_fail_counterexample :
    fetchLoopDemo (strL "mylogo.png") = none ∧
    nameHasLogoIcon (strL "mylogo.png") = true ∧
    (find_logo_in_repo fetchLoopDemo treeLoopDemo).1 = some ([1], strL "png") := by
  refine ⟨rfl, by decide, ?_⟩
  have hd : directProbe fetchLoopDemo LOGO_PATHS = (none, LOGO_PATHS) := by decide
  have hl : list_repo_images [] treeLoopDemo =
      [strL "mylogo.png", strL "myicon.png"] := by
    simp only [list_repo_images, treeLoopDemo, joinPath, image_exts, lowerL, strL]
    decide
  unfold find_logo_in_repo
  rw [find_logo_core_of_direct_none fetchLoopDemo LOGO_PATHS treeLoopDemo LOGO_PATHS hd,
    hl]
  decide

/-- C6 amended: in the recursive-listing phase, a failed fetch of a
logo/icon-named candidate does not yield absence — the loop advances to
the next logo/icon-named candidate (first conjunct: the first
logo/icon-named file whose fetch is truthy is returned, earlier failed
ones notwithstanding); when every logo/icon-named fetch fails, the
first listed file is fetched once more as a fallback, so a path can be
fetched twice (second conjunct: with a failing fallback fetch the
probed list is exactly the logo/icon-named files followed by the first
file, and the phase yields absence with no further fetch; third
conjunct: with a succeeding fallback fetch the same probed list is
produced but the first file's content is returned — so absence arises
only when that final fetch also fails). -/
theorem listing_phase_retry_and_fallback :
    (∀ (fetch : List Char → Option (List Nat)) files l₁ f l₂,
        files = l₁ ++ f :: l₂ →
        (∀ g ∈ l₁, nameHasLogoIcon g = true → bytesTruthy (fetch g) = false) →
        nameHasLogoIcon f = true →
        bytesTruthy (fetch f) = true →
        (listing_phase fetch files).1 = some ((fetch f).getD [], extOf f)) ∧
    (∀ (fetch : List Char → Option (List Nat)) first rest,
        (∀ g ∈ first :: rest, nameHasLogoIcon g = true → bytesTruthy (fetch g) = false) →
        bytesTruthy (fetch first) = false →
        listing_phase fetch (first :: rest) =
          (none, (first :: rest).filter nameHasLogoIcon ++ [first])) ∧
    (∀ (fetch : List Char → Option (List Nat)) first rest,
        (∀ g ∈ first :: rest, nameHasLogoIcon g = true → bytesTruthy (fetch g) = false) →
        bytesTruthy (fetch first) = true →
        listing_phase fetch (first :: rest) =
          (some ((fetch first).getD [], extOf first),
           (first :: rest).filter nameHasLogoIcon ++ [first])) := by
  refine ⟨?_, listing_phase_all_fail, listing_phase_fallback_success⟩
  intro fetch files l₁ f l₂ hdec h₁ h₂ h₃
  subst hdec
  exact listing_phase_hit fetch l₁ l₂ f h₁ h₂ h₃

theorem listing_phase_retry_and_fallback_witness :
    nameHasLogoIcon (strL "mylogo.png") = true ∧
    bytesTruthy (fetchLoopDemo (strL "myicon.png")) = true ∧
    (listing_phase fetchLoopDemo [strL "mylogo.png", strL "myicon.png"]).1 =
      some ([1], strL "png") ∧
    listing_phase (fun _ => none) [strL "logo.png"] =
      (none, [strL "logo.png", strL "logo.png"]) ∧
    listing_phase (fun q => if q = strL "b.png" then some [5] else none)
        [strL "b.png", strL "mylogo.png"] =
      (some ([5], strL "png"), [strL "mylogo.png", strL "b.png"]) :=
  ⟨by decide, by decide,
   listing_phase_retry_and_fallback.1 fetchLoopDemo
     [strL "mylogo.png", strL "myicon.png"] [strL "mylogo.png"]
     (strL "myicon.png") [] (by decide) (by decide) (by decide) (by decide),
   listing_phase_retry_and_fallback.2.1 (fun _ => none) (strL "logo.png") []
     (by decide) (by decide),
   listing_phase_retry_and_fallback.2.2
     (fun q => if q = strL "b.png" then some [5] else none)
     (strL "b.png") [strL "mylogo.png"] (by decide) (by decide)⟩

/-- C7 counterexample: `list_repo_images` does NOT place all root-level
entries before recursed-subdirectory entries. In `treeOrderDemo`, the
root-level file `b.png` is listed AFTER the subdirectory entry
`assets/a.png`, because subdirectory results are spliced in at the
directory item's position in the listing. -/
theorem listing_order_counterexample :
    list_repo_images [] treeOrderDemo = [strL "assets/a.png", strL "b.png"] := by
  simp [list_repo_images, treeOrderDemo, joinPath, image_exts, image_dir_names,
    lowerL, strL]

/-- C7 amended: `list_repo_images` returns image paths in
directory-item order with each allow-listed subdirectory's recursive
results spliced in at the position of the directory item (first two
conjuncts: the listing distributes over item concatenation, and a
qualifying directory item contributes its recursive listing in place);
the Locator's listing phase then prefers the first filename containing
"logo" or "icon" (case-insensitive), given that its fetch succeeds
(third conjunct), and falls back to the very first listed image file
when no filename qualifies (fourth conjunct). -/
theorem listing_order_and_preference :
    (∀ pre xs ys, list_repo_images pre (xs ++ ys) =
        list_repo_images pre xs ++ list_repo_images pre ys) ∧
    (∀ pre name children rest, lowerL name ∈ image_dir_names →
        list_repo_images pre (Entry.dir name children :: rest) =
          list_repo_images (joinPath pre name) children ++
            list_repo_images pre rest) ∧
    (∀ (fetch : List Char → Option (List Nat)) tree l₁ f l₂,
        list_repo_images [] tree = l₁ ++ f :: l₂ →
        (∀ g ∈ l₁, nameHasLogoIcon g = false) →
        nameHasLogoIcon f = true →
        bytesTruthy (fetch f) = true →
        (listing_phase fetch (list_repo_images [] tree)).1 =
          some ((fetch f).getD [], extOf f)) ∧
    (∀ (fetch : List Char → Option (List Nat)) tree first rest,
        list_repo_images [] tree = first :: rest →
        (∀ g ∈ first :: rest, nameHasLogoIcon g = false) →
        bytesTruthy (fetch first) = true →
        (listing_phase fetch (list_repo_images [] tree)).1 =
          some ((fetch first).getD [], extOf first)) := by
  refine ⟨list_repo_images_append, ?_, ?_, ?_⟩
  · intro pre name children rest h
    simp [list_repo_images, h]
  · intro fetch tree l₁ f l₂ hdec h₁ h₂ h₃
    rw [hdec]
    exact listing_phase_hit fetch l₁ l₂ f
      (fun g hg hn => by simp [h₁ g hg] at hn) h₂ h₃
  · intro fetch tree first rest hdec h hf
    rw [hdec]
    exact listing_phase_none_named_hit fetch first rest h hf

theorem listing_order_and_preference_witness :
    list_repo_images []
        [Entry.dir (strL "assets") [Entry.file (strL "icon.png")],
         Entry.file (strL "b.png")] =
      [] ++ strL "assets/icon.png" :: [strL "b.png"] ∧
    nameHasLogoIcon (strL "assets/icon.png") = true ∧
    (listing_phase (fun q => if q = strL "assets/icon.png" then some [2] else none)
        (list_repo_images []
          [Entry.dir (strL "assets") [Entry.file (strL "icon.png")],
           Entry.file (strL "b.png")])).1 =
      some ([2], strL "png") :=
  ⟨by simp only [list_repo_images, joinPath, image_exts, image_dir_names,
      lowerL, strL]; decide,
   by decide,
   listing_order_and_preference.2.2.1
     (fun q => if q = strL "assets/icon.png" then some [2] else none)
     [Entry.dir (strL "assets") [Entry.file (strL "icon.png")],
      Entry.file (strL "b.png")]
     [] (strL "assets/icon.png") [strL "b.png"]
     (by simp only [list_repo_images, joinPath, image_exts, image_dir_names,
        lowerL, strL]; decide)
     (by decide) (by decide) (by decide)⟩

/-- C10: whenever `find_logo_core` (for any candidate list, so in
particular `find_logo_in_repo` with `LOGO_PATHS`) returns a non-absent
result, the returned extension is a member of the allowed set
{png, svg, jpg, jpeg, gif} and is lowercase: the direct phase checks
membership explicitly, and the listing phase only selects files whose
lowercased name ends in an allowed dotted extension, which forces the
final dot-separated segment, lowercased, into the set. -/
theorem find_logo_ext_allowed (fetch : List Char → Option (List Nat))
    (paths : List (List Char)) (tree : List Entry)
    (c : List Nat) (ext : List Char)
    (h : (find_logo_core fetch paths tree).1 = some (c, ext)) :
    ext ∈ allowed_image_exts ∧ lowerL ext = ext := by
  have hmem : ext ∈ allowed_image_exts := by
    unfold find_logo_core at h
    cases hd : directProbe fetch paths with
    | mk r probed =>
        cases r with
        | some v =>
            rw [hd] at h
            simp only at h
            exact directProbe_some fetch paths c ext (by rw [hd, h])
        | none =>
            rw [hd] at h
            simp only at h
            obtain ⟨f, hf, rfl⟩ := listing_phase_some fetch _ c ext h
            exact extOf_mem_of_listed [] tree f hf
  exact ⟨hmem, allowed_lower ext hmem⟩

theorem find_logo_ext_allowed_witness :
    (find_logo_core (fun q => if q = strL "logo.svg" then some [3] else none)
        LOGO_PATHS []).1 = some ([3], strL "svg") ∧
    (strL "svg" ∈ allowed_image_exts ∧ lowerL (strL "svg") = strL "svg") :=
  ⟨by decide,
   find_logo_ext_allowed (fun q => if q = strL "logo.svg" then some [3] else none)
     LOGO_PATHS [] [3] (strL "svg") (by decide)⟩

end LoraPlayground
